import Mathlib

/-!
Shallow embedding of the quadratic-residue-permutation unique-sequence
generator `UniqueSeq` of `src/uniq_seq.cpp`, and proofs of the spec's claims
about it.

Machine integers are modelled as `ℕ` with explicit reduction `% 2^32`
(`unsigned int`) or `% 2^64` (`size_t`) exactly where the C arithmetic can
wrap.  The two unbounded loops of the source (the suitable-prime search and
the rejection loop of `next()`) are modelled with explicit fuel; the fuel
values are proved sufficient on the domains the claims speak about.
-/

namespace UniqSeq

/-- One more than the largest `unsigned int` value: `2^32`. -/
def U32 : ℕ := 4294967296

/-- One more than the largest `size_t` value: `2^64`. -/
def U64 : ℕ := 18446744073709551616

/-- Trial division worker: scans candidate divisors `d, d+1, ...` (at most
`fuel` of them) and returns `false` iff it finds one with `d * d ≤ n` that
divides `n`. -/
def noDiv : ℕ → ℕ → ℕ → Bool
  | 0, _, _ => true
  | fuel+1, d, n => if n < d * d then true else if n % d = 0 then false else noDiv fuel (d+1) n

/-- Executable primality test: `2 ≤ n` and no divisor in `[2, √n]`. -/
def isPrimeB (n : ℕ) : Bool := decide (2 ≤ n) && noDiv n 2 n

/-- Bounded upward scan for the first prime at or above `k`. -/
def primeSearch : ℕ → ℕ → ℕ
  | 0, k => k
  | fuel+1, k => if isPrimeB k then k else primeSearch fuel (k+1)

/-- Modelled from the spec: the collaborator `size_t __next_prime(size_t n)` is
declared in `src/uniq_seq.cpp` with the comment "See next_prime.cpp", but
`next_prime.cpp` is not among the repository's source files.  The spec fixes
its contract: "returns the smallest prime strictly greater than `n`".  The
fuel `n + 3` is proved sufficient from Bertrand's postulate
(`next_prime_prime`, `next_prime_gt`, `next_prime_min`). -/
def next_prime (n : ℕ) : ℕ := primeSearch (n + 3) (n + 1)

/-- The do-while loop of `UniqueSeq::get_next_suitable_prime`, with fuel:
`prime = __next_prime(prime + 1)` until `prime % 4 == 3`, all arithmetic in
`size_t`. -/
def suitableLoop : ℕ → ℕ → ℕ
  | 0, p => p
  | fuel+1, p =>
      if next_prime ((p + 1) % U64) % 4 = 3 then next_prime ((p + 1) % U64)
      else suitableLoop fuel (next_prime ((p + 1) % U64))

/-- `UniqueSeq::get_next_suitable_prime(size_t n)`:
`size_t prime = n - 1; do { prime = __next_prime(prime + 1); } while (prime % 4 != 3); return prime;`.
`n - 1` is `size_t` subtraction, hence `(n + 2^64 - 1) % 2^64`.  The concrete
fuel `4294967291` is proved sufficient for every `n ≤ 4294967291`
(`get_next_suitable_prime_eq`). -/
def get_next_suitable_prime (n : ℕ) : ℕ :=
  suitableLoop 4294967291 ((n + (U64 - 1)) % U64)

/-- The generator state: the four `unsigned int` member fields of class
`UniqueSeq`, in declaration order. -/
structure UniqueSeq where
  m_index : ℕ
  m_intermediateOffset : ℕ
  m_prime : ℕ
  m_range : ℕ
deriving DecidableEq

/-- `UniqueSeq::permuteQPR(unsigned x)` with modulus `p` (the member
`m_prime`): identity for `x ≥ p`, otherwise `residue = x*x % p` (the source
widens `x * x` to 64 bits, which for `x < 2^32` is exact, so plain `ℕ`
multiplication is faithful), folded by `p - residue` on the upper half. -/
def permuteQPR (p x : ℕ) : ℕ :=
  if x ≥ p then x
  else
    let residue := x * x % p
    if x ≤ p / 2 then residue else p - residue

/-- The constructor `UniqueSeq::UniqueSeq(unsigned range, unsigned seed = 0x1)`.
Both parameters are `unsigned int`, so arguments are reduced `% 2^32` as in the
C implicit conversion.  `m_prime` receives the `size_t` result of the prime
search truncated to `unsigned int`.  The mixing expression
`permuteQPR(permuteQPR(seed) + 2*m_prime - m_range)` is 32-bit unsigned
arithmetic: subtraction of `m_range` is addition of `2^32 - m_range` mod
`2^32`. -/
def UniqueSeq.make (range : ℕ) (seed : ℕ := 1) : UniqueSeq :=
  let r := range % U32
  let s := seed % U32
  let p := (if r > 4294967291 then 4294967291 else get_next_suitable_prime r) % U32
  { m_index := permuteQPR p ((permuteQPR p s + 2 * p + (U32 - r)) % U32)
    m_intermediateOffset := (p + (U32 - r)) % U32
    m_prime := p
    m_range := r }

/-- The do-while body of `UniqueSeq::next()`, with fuel: compute
`res = permuteQPR(permuteQPR(index))`, advance `index = (index + 1) % prime`,
and while `res > range` and fuel remains, repeat.  Returns the accepted value
and the index after it. -/
def nextAux (p r : ℕ) : ℕ → ℕ → ℕ × ℕ
  | 0, i => (permuteQPR p (permuteQPR p i), (i + 1) % p)
  | fuel+1, i =>
      let res := permuteQPR p (permuteQPR p i)
      let i' := (i + 1) % p
      if res > r then nextAux p r fuel i' else (res, i')

/-- `UniqueSeq::next()`: the produced value together with the updated
generator.  The fuel `m_prime + 1` is proved sufficient for every state whose
modulus is `3 mod 4` (`next_eq_of_accept`). -/
def UniqueSeq.next (g : UniqueSeq) : ℕ × UniqueSeq :=
  let out := nextAux g.m_prime g.m_range (g.m_prime + 1) g.m_index
  (out.1, { g with m_index := out.2 })

/-- The list of the first `n` values produced by successive `next()` calls. -/
def UniqueSeq.nexts (g : UniqueSeq) : ℕ → List ℕ
  | 0 => []
  | n+1 => (g.next).1 :: (g.next).2.nexts n

/-- The generator state after `n` calls to `next()` (verification helper). -/
def UniqueSeq.afterN (g : UniqueSeq) : ℕ → UniqueSeq
  | 0 => g
  | n+1 => ((g.afterN n).next).2

/-- Modular exponentiation by squaring (verification helper, used to certify
the primality of the moduli the source selects). -/
def powModAux : ℕ → ℕ → ℕ → ℕ → ℕ
  | 0, m, _, _ => 1 % m
  | fuel+1, m, a, e =>
      if e = 0 then 1 % m
      else
        let h := powModAux fuel m (a * a % m) (e / 2)
        if e % 2 = 1 then h * (a % m) % m else h

/-- `powMod m a e = a ^ e % m` for every exponent below `2^64` (`powMod_eq`). -/
def powMod (m a e : ℕ) : ℕ := powModAux 64 m a e

/-!  Correctness of the executable arithmetic helpers.  -/

theorem powModAux_eq : ∀ fuel m a e, e < 2 ^ fuel → powModAux fuel m a e = a ^ e % m := by
  intro fuel
  induction fuel with
  | zero =>
    intro m a e he
    interval_cases e
    simp [powModAux]
  | succ fuel ih =>
    intro m a e he
    by_cases h0 : e = 0
    · subst h0; simp [powModAux]
    · have h2 : e / 2 < 2 ^ fuel := by
        rw [pow_succ] at he; omega
      have hrec := ih m (a * a % m) (e / 2) h2
      simp only [powModAux, h0, if_false]
      rw [hrec, Nat.pow_mod, Nat.mod_mod_of_dvd, ← Nat.pow_mod]
      · have hsq : (a * a) ^ (e / 2) = a ^ (2 * (e / 2)) := by
          rw [two_mul, pow_add, ← pow_add]
          ring_nf
        by_cases hodd : e % 2 = 1
        · have he2 : e = 2 * (e / 2) + 1 := by omega
          simp only [hodd, if_true]
          rw [hsq, ← Nat.mul_mod, ← pow_succ, ← he2]
        · have he2 : e = 2 * (e / 2) := by omega
          simp only [hodd, if_false]
          rw [hsq, ← he2]
      · exact dvd_refl _

theorem powMod_eq (m a e : ℕ) (he : e < 2 ^ 64) : powMod m a e = a ^ e % m :=
  powModAux_eq 64 m a e he

theorem cast_pow_eq_one_iff (p a e : ℕ) (he : e < 2 ^ 64) :
    ((a : ZMod p) ^ e = 1) ↔ powMod p a e = 1 % p := by
  rw [powMod_eq p a e he]
  have h1 : ((a : ZMod p)) ^ e = ((a ^ e : ℕ) : ZMod p) := by push_cast; rfl
  have h2 : (1 : ZMod p) = ((1 : ℕ) : ZMod p) := by push_cast; rfl
  rw [h1, h2, ZMod.natCast_eq_natCast_iff]
  exact Iff.rfl

theorem cast_pow_ne_one (p a e : ℕ) (he : e < 2 ^ 64) (h : powMod p a e ≠ 1 % p) :
    ((a : ZMod p) ^ e ≠ 1) := fun hh => h ((cast_pow_eq_one_iff p a e he).mp hh)

/-!  Pratt-style primality certificates (via `lucas_primality`) for the large
primes that the generator's prime selection produces on the inputs the claims
speak about: `4294967291` (the largest 32-bit prime), `4294967311` (the
smallest prime above `2^32`, selected for `range = 4294967291`) and
`705032719` (selected for `range = 5000000000 mod 2^32 = 705032704`), together
with the primes of their certificate trees.  -/

theorem prime_364289 : Nat.Prime 364289 := by
  apply lucas_primality 364289 ((3 : ℕ) : ZMod 364289)
  · rw [show (364289 - 1 : ℕ) = 364288 from rfl,
      cast_pow_eq_one_iff 364289 3 364288 (by norm_num)]
    decide
  · intro q hq hdvd
    have hq2 : q = 2 ∨ q = 1423 := by
      rw [show (364289 - 1 : ℕ) = 2 ^ 8 * 1423 from by norm_num] at hdvd
      rcases (Nat.Prime.dvd_mul hq).mp hdvd with h | h
      · exact Or.inl ((Nat.prime_dvd_prime_iff_eq hq Nat.prime_two).mp (hq.dvd_of_dvd_pow h))
      · exact Or.inr ((Nat.prime_dvd_prime_iff_eq hq (by norm_num)).mp h)
    rcases hq2 with rfl | rfl
    · exact cast_pow_ne_one 364289 3 ((364289 - 1) / 2) (by norm_num) (by decide)
    · exact cast_pow_ne_one 364289 3 ((364289 - 1) / 1423) (by norm_num) (by decide)

theorem prime_22605091 : Nat.Prime 22605091 := by
  apply lucas_primality 22605091 ((11 : ℕ) : ZMod 22605091)
  · rw [show (22605091 - 1 : ℕ) = 22605090 from rfl,
      cast_pow_eq_one_iff 22605091 11 22605090 (by norm_num)]
    decide
  · intro q hq hdvd
    have hq2 : q = 2 ∨ q = 3 ∨ q = 5 ∨ q = 23 ∨ q = 181 := by
      rw [show (22605091 - 1 : ℕ) = 2 * (3 * (5 * (23 * 181 ^ 2))) from by norm_num] at hdvd
      rcases (Nat.Prime.dvd_mul hq).mp hdvd with h | h
      · exact Or.inl ((Nat.prime_dvd_prime_iff_eq hq Nat.prime_two).mp h)
      rcases (Nat.Prime.dvd_mul hq).mp h with h | h
      · exact Or.inr (Or.inl ((Nat.prime_dvd_prime_iff_eq hq Nat.prime_three).mp h))
      rcases (Nat.Prime.dvd_mul hq).mp h with h | h
      · exact Or.inr (Or.inr (Or.inl ((Nat.prime_dvd_prime_iff_eq hq (by norm_num)).mp h)))
      rcases (Nat.Prime.dvd_mul hq).mp h with h | h
      · exact Or.inr (Or.inr (Or.inr (Or.inl ((Nat.prime_dvd_prime_iff_eq hq (by norm_num)).mp h))))
      · exact Or.inr (Or.inr (Or.inr (Or.inr
          ((Nat.prime_dvd_prime_iff_eq hq (by norm_num)).mp (hq.dvd_of_dvd_pow h)))))
    rcases hq2 with rfl | rfl | rfl | rfl | rfl
    · exact cast_pow_ne_one _ _ ((22605091 - 1) / 2) (by norm_num) (by decide)
    · exact cast_pow_ne_one _ _ ((22605091 - 1) / 3) (by norm_num) (by decide)
    · exact cast_pow_ne_one _ _ ((22605091 - 1) / 5) (by norm_num) (by decide)
    · exact cast_pow_ne_one _ _ ((22605091 - 1) / 23) (by norm_num) (by decide)
    · exact cast_pow_ne_one _ _ ((22605091 - 1) / 181) (by norm_num) (by decide)

theorem prime_9038881 : Nat.Prime 9038881 := by
  apply lucas_primality 9038881 ((7 : ℕ) : ZMod 9038881)
  · rw [show (9038881 - 1 : ℕ) = 9038880 from rfl,
      cast_pow_eq_one_iff 9038881 7 9038880 (by norm_num)]
    decide
  · intro q hq hdvd
    have hq2 : q = 2 ∨ q = 3 ∨ q = 5 ∨ q = 6277 := by
      rw [show (9038881 - 1 : ℕ) = 2 ^ 5 * (3 ^ 2 * (5 * 6277)) from by norm_num] at hdvd
      rcases (Nat.Prime.dvd_mul hq).mp hdvd with h | h
      · exact Or.inl ((Nat.prime_dvd_prime_iff_eq hq Nat.prime_two).mp (hq.dvd_of_dvd_pow h))
      rcases (Nat.Prime.dvd_mul hq).mp h with h | h
      · exact Or.inr (Or.inl ((Nat.prime_dvd_prime_iff_eq hq Nat.prime_three).mp (hq.dvd_of_dvd_pow h)))
      rcases (Nat.Prime.dvd_mul hq).mp h with h | h
      · exact Or.inr (Or.inr (Or.inl ((Nat.prime_dvd_prime_iff_eq hq (by norm_num)).mp h)))
      · exact Or.inr (Or.inr (Or.inr ((Nat.prime_dvd_prime_iff_eq hq (by norm_num)).mp h)))
    rcases hq2 with rfl | rfl | rfl | rfl
    · exact cast_pow_ne_one _ _ ((9038881 - 1) / 2) (by norm_num) (by decide)
    · exact cast_pow_ne_one _ _ ((9038881 - 1) / 3) (by norm_num) (by decide)
    · exact cast_pow_ne_one _ _ ((9038881 - 1) / 5) (by norm_num) (by decide)
    · exact cast_pow_ne_one _ _ ((9038881 - 1) / 6277) (by norm_num) (by decide)

theorem prime_4294967291 : Nat.Prime 4294967291 := by
  apply lucas_primality 4294967291 ((2 : ℕ) : ZMod 4294967291)
  · rw [show (4294967291 - 1 : ℕ) = 4294967290 from rfl,
      cast_pow_eq_one_iff 4294967291 2 4294967290 (by norm_num)]
    decide
  · intro q hq hdvd
    have hq2 : q = 2 ∨ q = 5 ∨ q = 19 ∨ q = 22605091 := by
      rw [show (4294967291 - 1 : ℕ) = 2 * (5 * (19 * 22605091)) from by norm_num] at hdvd
      rcases (Nat.Prime.dvd_mul hq).mp hdvd with h | h
      · exact Or.inl ((Nat.prime_dvd_prime_iff_eq hq Nat.prime_two).mp h)
      rcases (Nat.Prime.dvd_mul hq).mp h with h | h
      · exact Or.inr (Or.inl ((Nat.prime_dvd_prime_iff_eq hq (by norm_num)).mp h))
      rcases (Nat.Prime.dvd_mul hq).mp h with h | h
      · exact Or.inr (Or.inr (Or.inl ((Nat.prime_dvd_prime_iff_eq hq (by norm_num)).mp h)))
      · exact Or.inr (Or.inr (Or.inr ((Nat.prime_dvd_prime_iff_eq hq prime_22605091).mp h)))
    rcases hq2 with rfl | rfl | rfl | rfl
    · exact cast_pow_ne_one _ _ ((4294967291 - 1) / 2) (by norm_num) (by decide)
    · exact cast_pow_ne_one _ _ ((4294967291 - 1) / 5) (by norm_num) (by decide)
    · exact cast_pow_ne_one _ _ ((4294967291 - 1) / 19) (by norm_num) (by decide)
    · exact cast_pow_ne_one _ _ ((4294967291 - 1) / 22605091) (by norm_num) (by decide)

theorem prime_4294967311 : Nat.Prime 4294967311 := by
  apply lucas_primality 4294967311 ((3 : ℕ) : ZMod 4294967311)
  · rw [show (4294967311 - 1 : ℕ) = 4294967310 from rfl,
      cast_pow_eq_one_iff 4294967311 3 4294967310 (by norm_num)]
    decide
  · intro q hq hdvd
    have hq2 : q = 2 ∨ q = 3 ∨ q = 5 ∨ q = 131 ∨ q = 364289 := by
      rw [show (4294967311 - 1 : ℕ) = 2 * (3 ^ 2 * (5 * (131 * 364289))) from by norm_num] at hdvd
      rcases (Nat.Prime.dvd_mul hq).mp hdvd with h | h
      · exact Or.inl ((Nat.prime_dvd_prime_iff_eq hq Nat.prime_two).mp h)
      rcases (Nat.Prime.dvd_mul hq).mp h with h | h
      · exact Or.inr (Or.inl ((Nat.prime_dvd_prime_iff_eq hq Nat.prime_three).mp (hq.dvd_of_dvd_pow h)))
      rcases (Nat.Prime.dvd_mul hq).mp h with h | h
      · exact Or.inr (Or.inr (Or.inl ((Nat.prime_dvd_prime_iff_eq hq (by norm_num)).mp h)))
      rcases (Nat.Prime.dvd_mul hq).mp h with h | h
      · exact Or.inr (Or.inr (Or.inr (Or.inl ((Nat.prime_dvd_prime_iff_eq hq (by norm_num)).mp h))))
      · exact Or.inr (Or.inr (Or.inr (Or.inr
          ((Nat.prime_dvd_prime_iff_eq hq prime_364289).mp h))))
    rcases hq2 with rfl | rfl | rfl | rfl | rfl
    · exact cast_pow_ne_one _ _ ((4294967311 - 1) / 2) (by norm_num) (by decide)
    · exact cast_pow_ne_one _ _ ((4294967311 - 1) / 3) (by norm_num) (by decide)
    · exact cast_pow_ne_one _ _ ((4294967311 - 1) / 5) (by norm_num) (by decide)
    · exact cast_pow_ne_one _ _ ((4294967311 - 1) / 131) (by norm_num) (by decide)
    · exact cast_pow_ne_one _ _ ((4294967311 - 1) / 364289) (by norm_num) (by decide)

theorem prime_705032719 : Nat.Prime 705032719 := by
  apply lucas_primality 705032719 ((6 : ℕ) : ZMod 705032719)
  · rw [show (705032719 - 1 : ℕ) = 705032718 from rfl,
      cast_pow_eq_one_iff 705032719 6 705032718 (by norm_num)]
    decide
  · intro q hq hdvd
    have hq2 : q = 2 ∨ q = 3 ∨ q = 13 ∨ q = 9038881 := by
      rw [show (705032719 - 1 : ℕ) = 2 * (3 * (13 * 9038881)) from by norm_num] at hdvd
      rcases (Nat.Prime.dvd_mul hq).mp hdvd with h | h
      · exact Or.inl ((Nat.prime_dvd_prime_iff_eq hq Nat.prime_two).mp h)
      rcases (Nat.Prime.dvd_mul hq).mp h with h | h
      · exact Or.inr (Or.inl ((Nat.prime_dvd_prime_iff_eq hq Nat.prime_three).mp h))
      rcases (Nat.Prime.dvd_mul hq).mp h with h | h
      · exact Or.inr (Or.inr (Or.inl ((Nat.prime_dvd_prime_iff_eq hq (by norm_num)).mp h)))
      · exact Or.inr (Or.inr (Or.inr ((Nat.prime_dvd_prime_iff_eq hq prime_9038881).mp h)))
    rcases hq2 with rfl | rfl | rfl | rfl
    · exact cast_pow_ne_one _ _ ((705032719 - 1) / 2) (by norm_num) (by decide)
    · exact cast_pow_ne_one _ _ ((705032719 - 1) / 3) (by norm_num) (by decide)
    · exact cast_pow_ne_one _ _ ((705032719 - 1) / 13) (by norm_num) (by decide)
    · exact cast_pow_ne_one _ _ ((705032719 - 1) / 9038881) (by norm_num) (by decide)

/-!  Correctness of the trial-division primality test and of the modelled
`__next_prime` collaborator.  -/

theorem noDiv_iff : ∀ fuel d n, 2 ≤ d →
    (noDiv fuel d n = true ↔ ∀ e, d ≤ e → e < d + fuel → e * e ≤ n → n % e ≠ 0) := by
  intro fuel
  induction fuel with
  | zero =>
    intro d n _
    simp only [noDiv, true_iff]
    intro e h1 h2
    omega
  | succ fuel ih =>
    intro d n hd
    show (if n < d * d then true else if n % d = 0 then false else noDiv fuel (d + 1) n) = true
      ↔ _
    by_cases hlt : n < d * d
    · rw [if_pos hlt]
      simp only [true_iff]
      intro e h1 h2 h3
      have : d * d ≤ e * e := Nat.mul_le_mul h1 h1
      omega
    · rw [if_neg hlt]
      by_cases hmod : n % d = 0
      · rw [if_pos hmod]
        constructor
        · intro h
          exact absurd h (by simp)
        · intro H
          exact absurd hmod (H d le_rfl (by omega) (by omega))
      · rw [if_neg hmod, ih (d + 1) n (by omega)]
        constructor
        · intro H e h1 h2 h3
          rcases eq_or_lt_of_le h1 with rfl | h1'
          · exact hmod
          · exact H e (by omega) (by omega) h3
        · intro H e h1 h2 h3
          exact H e (by omega) (by omega) h3

theorem isPrimeB_iff (n : ℕ) : isPrimeB n = true ↔ n.Prime := by
  rw [isPrimeB, Bool.and_eq_true, decide_eq_true_iff]
  constructor
  · rintro ⟨h2, hnd⟩
    rw [Nat.prime_def_le_sqrt]
    refine ⟨h2, fun m hm hms hdvd => ?_⟩
    have hmm : m * m ≤ n := Nat.le_sqrt.mp hms
    have hmlt : m < 2 + n := by
      have := Nat.sqrt_le_self n
      omega
    exact (noDiv_iff n 2 n le_rfl).mp hnd m hm hmlt hmm (Nat.mod_eq_zero_of_dvd hdvd)
  · intro hp
    refine ⟨hp.two_le, (noDiv_iff n 2 n le_rfl).mpr fun e h1 _ h3 hmod => ?_⟩
    have hdvd : e ∣ n := Nat.dvd_iff_mod_eq_zero.mpr hmod
    rcases (Nat.Prime.eq_one_or_self_of_dvd hp e hdvd) with rfl | rfl
    · omega
    · have h2 := hp.two_le
      have : 2 * e ≤ e * e := Nat.mul_le_mul_right e h2
      omega

theorem not_prime_of_factor (a b : ℕ) {n : ℕ} (ha : 2 ≤ a) (hb : 2 ≤ b) (h : n = a * b) :
    ¬ n.Prime := by
  subst h
  exact Nat.not_prime_mul (by omega) (by omega)

theorem primeSearch_spec : ∀ fuel k, (∃ p, k ≤ p ∧ p < k + fuel ∧ p.Prime) →
    (primeSearch fuel k).Prime ∧ k ≤ primeSearch fuel k ∧
      ∀ q, k ≤ q → q < primeSearch fuel k → ¬ q.Prime := by
  intro fuel
  induction fuel with
  | zero =>
    rintro k ⟨p, h1, h2, _⟩
    omega
  | succ fuel ih =>
    intro k hex
    have hunfold : primeSearch (fuel + 1) k
        = if isPrimeB k = true then k else primeSearch fuel (k + 1) := rfl
    by_cases hk : isPrimeB k = true
    · rw [hunfold, if_pos hk]
      exact ⟨(isPrimeB_iff k).mp hk, le_rfl,
        fun q hq1 hq2 _ => absurd hq1 (by omega)⟩
    · have hknp : ¬ k.Prime := fun hp => hk ((isPrimeB_iff k).mpr hp)
      rw [hunfold, if_neg hk]
      obtain ⟨p, h1, h2, hp⟩ := hex
      have hpk : p ≠ k := fun h => hknp (h ▸ hp)
      obtain ⟨ha, hb, hc⟩ := ih (k + 1) ⟨p, by omega, by omega, hp⟩
      refine ⟨ha, by omega, fun q hq1 hq2 => ?_⟩
      rcases eq_or_lt_of_le hq1 with rfl | hq1'
      · exact hknp
      · exact hc q (by omega) hq2

theorem next_prime_spec (n : ℕ) : (next_prime n).Prime ∧ n < next_prime n ∧
    ∀ q, n < q → q < next_prime n → ¬ q.Prime := by
  have hex : ∃ p, n + 1 ≤ p ∧ p < n + 1 + (n + 3) ∧ p.Prime := by
    rcases Nat.eq_zero_or_pos n with rfl | hn
    · exact ⟨2, by norm_num, by norm_num, Nat.prime_two⟩
    · obtain ⟨p, hp, hlt, hle⟩ := Nat.exists_prime_lt_and_le_two_mul n (by omega)
      exact ⟨p, by omega, by omega, hp⟩
  obtain ⟨h1, h2, h3⟩ := primeSearch_spec (n + 3) (n + 1) hex
  have hnp : next_prime n = primeSearch (n + 3) (n + 1) := rfl
  rw [hnp]
  exact ⟨h1, by omega, fun q hq1 hq2 => h3 q (by omega) hq2⟩

theorem next_prime_prime (n : ℕ) : (next_prime n).Prime := (next_prime_spec n).1

theorem next_prime_gt (n : ℕ) : n < next_prime n := (next_prime_spec n).2.1

theorem next_prime_min {n q : ℕ} (h1 : n < q) (hq : q.Prime) : next_prime n ≤ q := by
  by_contra h
  push_neg at h
  exact (next_prime_spec n).2.2 q h1 h hq

theorem next_prime_eq {n p : ℕ} (h1 : n < p) (h2 : p.Prime)
    (h3 : ∀ q, n < q → q < p → ¬ q.Prime) : next_prime n = p := by
  have ha := next_prime_min h1 h2
  have hb : ¬ next_prime n < p := fun hlt => h3 _ (next_prime_gt n) hlt (next_prime_prime n)
  omega

/-!  Infinitude of the primes congruent to `3 mod 4`, giving the spec-side
"smallest suitable prime" functions total definitions.  -/

theorem exists_factor_three_mod_four : ∀ n, n % 4 = 3 → ∃ p, p.Prime ∧ p % 4 = 3 ∧ p ∣ n := by
  intro n
  induction n using Nat.strong_induction_on with
  | _ n ih =>
    intro h4
    have hn1 : n ≠ 1 := by omega
    have hqp : n.minFac.Prime := Nat.minFac_prime hn1
    have hqd : n.minFac ∣ n := Nat.minFac_dvd n
    have hq2 : n.minFac ≠ 2 := by
      rintro h2
      have : n % 2 = 0 := Nat.mod_eq_zero_of_dvd (h2 ▸ hqd)
      omega
    have hqodd : n.minFac % 2 = 1 := by
      rcases hqp.eq_two_or_odd with h | h
      · exact absurd h hq2
      · exact h
    by_cases hq4 : n.minFac % 4 = 3
    · exact ⟨n.minFac, hqp, hq4, hqd⟩
    · have hq41 : n.minFac % 4 = 1 := by omega
      obtain ⟨m, hm⟩ := hqd
      have hm4 : m % 4 = 3 := by
        have hmm := Nat.mul_mod n.minFac m 4
        rw [← hm, hq41] at hmm
        omega
      have hm0 : m ≠ 0 := by
        rintro rfl
        rw [Nat.mul_zero] at hm
        omega
      have hmlt : m < n := by
        have h2q : 2 ≤ n.minFac := hqp.two_le
        calc m < 2 * m := by omega
        _ ≤ n.minFac * m := Nat.mul_le_mul_right m h2q
        _ = n := hm.symm
      obtain ⟨p, hp1, hp2, hp3⟩ := ih m hmlt hm4
      exact ⟨p, hp1, hp2, hp3.trans ⟨n.minFac, by rw [Nat.mul_comm]; exact hm⟩⟩

theorem exists_suitable_gt (n : ℕ) : ∃ p, n < p ∧ p.Prime ∧ p % 4 = 3 := by
  have hfac : 1 ≤ (n + 1).factorial := (n + 1).factorial_pos
  have hM : (4 * (n + 1).factorial - 1) % 4 = 3 := by omega
  obtain ⟨p, hp, hp4, hpd⟩ := exists_factor_three_mod_four _ hM
  refine ⟨p, ?_, hp, hp4⟩
  by_contra hle
  push_neg at hle
  have hpf : p ∣ (n + 1).factorial := Nat.dvd_factorial hp.pos (by omega)
  have hone : p ∣ 1 := by
    have h2 : p ∣ 4 * (n + 1).factorial := Dvd.dvd.mul_left hpf 4
    have h3 : 4 * (n + 1).factorial - (4 * (n + 1).factorial - 1) = 1 := by omega
    exact h3 ▸ Nat.dvd_sub' h2 hpd
  have := Nat.le_of_dvd Nat.one_pos hone
  have := hp.two_le
  omega

/-- The smallest prime strictly greater than `n` that is `3 mod 4`:
what the selection loop of the source actually produces (for `2 ≤ n`,
`get_next_suitable_prime_eq_least`). -/
def leastSuitableGT (n : ℕ) : ℕ := Nat.find (exists_suitable_gt n)

theorem leastSuitableGT_spec (n : ℕ) :
    n < leastSuitableGT n ∧ (leastSuitableGT n).Prime ∧ leastSuitableGT n % 4 = 3 :=
  Nat.find_spec (exists_suitable_gt n)

theorem leastSuitableGT_min {n q : ℕ} (h1 : n < q) (h2 : q.Prime) (h3 : q % 4 = 3) :
    leastSuitableGT n ≤ q := Nat.find_min' (exists_suitable_gt n) ⟨h1, h2, h3⟩

theorem leastSuitableGT_not {n q : ℕ} (hlt : q < leastSuitableGT n) :
    ¬ (n < q ∧ q.Prime ∧ q % 4 = 3) := Nat.find_min (exists_suitable_gt n) hlt

theorem leastSuitableGT_eq {n T : ℕ} (h1 : n < T) (h2 : T.Prime) (h3 : T % 4 = 3)
    (h4 : ∀ q, n < q → q < T → q.Prime → q % 4 ≠ 3) : leastSuitableGT n = T := by
  have ha := leastSuitableGT_min h1 h2 h3
  obtain ⟨hgt, hp, hp4⟩ := leastSuitableGT_spec n
  have hb : ¬ leastSuitableGT n < T := fun hlt => h4 _ hgt hlt hp hp4
  omega

theorem exists_suitable_ge (n : ℕ) : ∃ p, n ≤ p ∧ p.Prime ∧ p % 4 = 3 := by
  obtain ⟨p, h1, h2, h3⟩ := exists_suitable_gt n
  exact ⟨p, le_of_lt h1, h2, h3⟩

/-- Spec-side definition (the claim's wording for prime selection): the
smallest prime `p ≥ range` such that `p mod 4 == 3`.  Compared against the
implementation's `get_next_suitable_prime`. -/
def specSmallestSuitableGE (n : ℕ) : ℕ := Nat.find (exists_suitable_ge n)

theorem specSmallestSuitableGE_eq {n T : ℕ} (h1 : n ≤ T) (h2 : T.Prime) (h3 : T % 4 = 3)
    (h4 : ∀ q, n ≤ q → q < T → q.Prime → q % 4 ≠ 3) : specSmallestSuitableGE n = T := by
  have ha : specSmallestSuitableGE n ≤ T := Nat.find_min' (exists_suitable_ge n) ⟨h1, h2, h3⟩
  obtain ⟨hge, hp, hp4⟩ := Nat.find_spec (exists_suitable_ge n)
  have hb : ¬ specSmallestSuitableGE n < T := fun hlt => h4 _ hge hlt hp hp4
  omega

/-!  Characterization of the suitable-prime selection loop.  -/

theorem U64_eq : U64 = 18446744073709551616 := rfl

theorem suitableLoop_correct : ∀ fuel p T,
    2 ≤ p → T.Prime → T % 4 = 3 → T < U64 → p + 1 < T → T ≤ p + 1 + fuel →
    (∀ r, p + 1 < r → r < T → r.Prime → r % 4 ≠ 3) →
    suitableLoop fuel p = T := by
  intro fuel
  induction fuel with
  | zero =>
    intro p T _ _ _ _ h5 h6 _
    omega
  | succ fuel ih =>
    intro p T hp hT hT4 hTU h5 h6 hmin
    have hmod : (p + 1) % U64 = p + 1 := by
      rw [U64_eq]
      rw [U64_eq] at hTU
      omega
    rw [suitableLoop, hmod]
    have hqp : (next_prime (p + 1)).Prime := next_prime_prime _
    have hqgt : p + 1 < next_prime (p + 1) := next_prime_gt _
    have hqle : next_prime (p + 1) ≤ T := next_prime_min h5 hT
    by_cases hq4 : next_prime (p + 1) % 4 = 3
    · simp only [hq4, if_true]
      have : ¬ next_prime (p + 1) < T := fun hlt => hmin _ hqgt hlt hqp hq4
      omega
    · simp only [hq4, if_false]
      have hqlt : next_prime (p + 1) < T :=
        lt_of_le_of_ne hqle (fun h => hq4 (h ▸ hT4))
      have hqodd : next_prime (p + 1) % 2 = 1 := by
        rcases hqp.eq_two_or_odd with h | h
        · omega
        · exact h
      have hTodd : T % 2 = 1 := by omega
      apply ih (next_prime (p + 1)) T (by omega) hT hT4 hTU (by omega) (by omega)
      intro r h1 h2 hr
      exact hmin r (by omega) h2 hr

/-- For `3 ≤ n ≤ 4294967290`, the source's prime selection returns the
smallest prime strictly greater than `n` congruent to `3 mod 4`. -/
theorem get_next_suitable_prime_eq_least (n : ℕ) (h3 : 3 ≤ n) (hle : n ≤ 4294967290) :
    get_next_suitable_prime n = leastSuitableGT n := by
  have hU : (n + (U64 - 1)) % U64 = n - 1 := by
    rw [U64_eq]
    omega
  rw [get_next_suitable_prime, hU]
  obtain ⟨hgt, hp, h4⟩ := leastSuitableGT_spec n
  have hcap : leastSuitableGT n ≤ 4294967291 :=
    leastSuitableGT_min (by omega) prime_4294967291 (by norm_num)
  apply suitableLoop_correct 4294967291 (n - 1) (leastSuitableGT n) (by omega) hp h4
  · rw [U64_eq]; omega
  · omega
  · omega
  · intro r h1 h2 hr hr4
    exact leastSuitableGT_not h2 ⟨by omega, hr, hr4⟩

/-- The range `4294967291` escapes the cap check but its selected (64-bit)
prime is `4294967311`, above `2^32`. -/
theorem gnsp_4294967291 : get_next_suitable_prime 4294967291 = 4294967311 := by
  have hU : (4294967291 + (U64 - 1)) % U64 = 4294967290 := by
    rw [U64_eq]
  rw [get_next_suitable_prime, hU]
  apply suitableLoop_correct 4294967291 4294967290 4294967311 (by norm_num) prime_4294967311
    (by norm_num) (by rw [U64_eq]; norm_num) (by norm_num) (by norm_num)
  intro r h1 h2 hr hr4
  interval_cases r
  · omega
  · omega
  · omega
  · exact absurd hr (not_prime_of_factor 3 1431655765 (by norm_num) (by norm_num) (by norm_num))
  · omega
  · omega
  · omega
  · exact absurd hr (not_prime_of_factor 7 613566757 (by norm_num) (by norm_num) (by norm_num))
  · omega
  · omega
  · omega
  · exact absurd hr (not_prime_of_factor 11 390451573 (by norm_num) (by norm_num) (by norm_num))
  · omega
  · omega
  · omega
  · exact absurd hr (not_prime_of_factor 3 1431655769 (by norm_num) (by norm_num) (by norm_num))
  · omega
  · omega
  · omega

theorem leastSuitableGT_705032704 : leastSuitableGT 705032704 = 705032719 := by
  apply leastSuitableGT_eq (by norm_num) prime_705032719 (by norm_num)
  intro q h1 h2 hq hq4
  interval_cases q
  · omega
  · omega
  · exact absurd hq (not_prime_of_factor 757 931351 (by norm_num) (by norm_num) (by norm_num))
  · omega
  · omega
  · omega
  · exact absurd hq (not_prime_of_factor 8779 80309 (by norm_num) (by norm_num) (by norm_num))
  · omega
  · omega
  · omega
  · exact absurd hq (not_prime_of_factor 3 235010905 (by norm_num) (by norm_num) (by norm_num))
  · omega
  · omega
  · omega

theorem gnsp_705032704 : get_next_suitable_prime 705032704 = 705032719 := by
  rw [get_next_suitable_prime_eq_least 705032704 (by norm_num) (by norm_num),
    leastSuitableGT_705032704]

/-!  The quadratic-residue permutation: branch values, range, and injectivity
on `[0, p)`.  -/

theorem permuteQPR_of_ge {p x : ℕ} (hx : p ≤ x) : permuteQPR p x = x := by
  simp only [permuteQPR]
  rw [if_pos hx]

theorem permuteQPR_low {p x : ℕ} (hx : x < p) (hhalf : x ≤ p / 2) :
    permuteQPR p x = x * x % p := by
  simp only [permuteQPR]
  rw [if_neg (by omega)]
  show (if x ≤ p / 2 then x * x % p else p - x * x % p) = x * x % p
  rw [if_pos hhalf]

theorem permuteQPR_high {p x : ℕ} (hx : x < p) (hhalf : p / 2 < x) :
    permuteQPR p x = p - x * x % p := by
  simp only [permuteQPR]
  rw [if_neg (by omega)]
  show (if x ≤ p / 2 then x * x % p else p - x * x % p) = p - x * x % p
  rw [if_neg (by omega)]

theorem permuteQPR_lt {p x : ℕ} (hp : p.Prime) (hx : x < p) : permuteQPR p x < p := by
  have h2 : 2 ≤ p := hp.two_le
  by_cases hhalf : x ≤ p / 2
  · rw [permuteQPR_low hx hhalf]
    exact Nat.mod_lt _ (by omega)
  · push_neg at hhalf
    rw [permuteQPR_high hx hhalf]
    have hres : x * x % p ≠ 0 := by
      intro h0
      have hdvd : p ∣ x * x := Nat.dvd_iff_mod_eq_zero.mpr h0
      rcases (Nat.Prime.dvd_mul hp).mp hdvd with h | h <;>
        exact absurd (Nat.le_of_dvd (by omega) h) (by omega)
    have : x * x % p < p := Nat.mod_lt _ (by omega)
    omega

theorem permuteQPR_zero {p : ℕ} (hp : 0 < p) : permuteQPR p 0 = 0 := by
  rw [permuteQPR_low hp (Nat.zero_le _)]
  simp

theorem permuteQPR_one {p : ℕ} (hp : 3 ≤ p) : permuteQPR p 1 = 1 := by
  rw [permuteQPR_low (by omega) (by omega), Nat.one_mul, Nat.mod_eq_of_lt (by omega)]

theorem permuteQPR_cross_absurd {p : ℕ} (hp : p.Prime) (hp4 : p % 4 = 3) {x y : ℕ}
    (_hx : x < p) (hy : y < p) (hy0 : p / 2 < y)
    (heq : x * x % p = p - y * y % p) : False := by
  haveI : Fact p.Prime := ⟨hp⟩
  haveI : NeZero p := ⟨hp.ne_zero⟩
  have h2 : 2 ≤ p := hp.two_le
  have hyres : y * y % p ≠ 0 := by
    intro h0
    have hdvd : p ∣ y * y := Nat.dvd_iff_mod_eq_zero.mpr h0
    rcases (Nat.Prime.dvd_mul hp).mp hdvd with h | h <;>
      exact absurd (Nat.le_of_dvd (by omega) h) (by omega)
  have hyltp : y * y % p < p := Nat.mod_lt _ (by omega)
  have hsum : x * x % p + y * y % p = p := by omega
  have key : ((x : ZMod p)) * x + ((y : ZMod p)) * y = 0 := by
    calc ((x : ZMod p)) * x + ((y : ZMod p)) * y
        = ((x * x % p : ℕ) : ZMod p) + ((y * y % p : ℕ) : ZMod p) := by
          rw [ZMod.natCast_mod, ZMod.natCast_mod]
          push_cast
          ring
      _ = ((x * x % p + y * y % p : ℕ) : ZMod p) := by rw [Nat.cast_add]
      _ = ((p : ℕ) : ZMod p) := by rw [hsum]
      _ = 0 := ZMod.natCast_self p
  have hY : (y : ZMod p) ≠ 0 := by
    intro h0
    rw [ZMod.natCast_zmod_eq_zero_iff_dvd] at h0
    exact absurd (Nat.le_of_dvd (by omega) h0) (by omega)
  have hY2 : (y : ZMod p) * (y : ZMod p) ≠ 0 := mul_ne_zero hY hY
  have hXX : ((x : ZMod p)) * x = -(((y : ZMod p)) * y) :=
    eq_neg_of_add_eq_zero_left key
  have hXY : (((x : ZMod p)) * ((y : ZMod p))⁻¹) * (((x : ZMod p)) * ((y : ZMod p))⁻¹)
      = -1 := by
    calc (((x : ZMod p)) * ((y : ZMod p))⁻¹) * (((x : ZMod p)) * ((y : ZMod p))⁻¹)
        = (((x : ZMod p)) * x) * (((y : ZMod p))⁻¹ * ((y : ZMod p))⁻¹) := by ring
      _ = -((((y : ZMod p)) * y) * (((y : ZMod p)) * y)⁻¹) := by
          rw [hXX, mul_inv]
          ring
      _ = -1 := by rw [mul_inv_cancel₀ hY2]
  have hSq : IsSquare (-1 : ZMod p) := ⟨_, hXY.symm⟩
  exact (ZMod.exists_sq_eq_neg_one_iff.mp hSq) hp4

theorem permuteQPR_injOn {p : ℕ} (hp : p.Prime) (hp4 : p % 4 = 3) :
    ∀ {x y : ℕ}, x < p → y < p → permuteQPR p x = permuteQPR p y → x = y := by
  intro x y hx hy heq
  haveI : Fact p.Prime := ⟨hp⟩
  haveI : NeZero p := ⟨hp.ne_zero⟩
  have h2 : 2 ≤ p := hp.two_le
  have hodd : p % 2 = 1 := by omega
  have hsq_case : x * x % p = y * y % p → x = y ∨ p ∣ (x + y) := by
    intro hss
    have hc : ((x : ZMod p)) * x = ((y : ZMod p)) * y := by
      calc ((x : ZMod p)) * x = ((x * x : ℕ) : ZMod p) := by push_cast; ring
        _ = ((x * x % p : ℕ) : ZMod p) := (ZMod.natCast_mod _ _).symm
        _ = ((y * y % p : ℕ) : ZMod p) := by rw [hss]
        _ = ((y * y : ℕ) : ZMod p) := ZMod.natCast_mod _ _
        _ = ((y : ZMod p)) * y := by push_cast; ring
    rcases mul_self_eq_mul_self_iff.mp hc with h | h
    · left
      have := congrArg ZMod.val h
      rwa [ZMod.val_natCast_of_lt hx, ZMod.val_natCast_of_lt hy] at this
    · right
      have hadd : ((x + y : ℕ) : ZMod p) = 0 := by
        push_cast
        rw [h]
        ring
      exact (ZMod.natCast_zmod_eq_zero_iff_dvd _ _).mp hadd
  by_cases hx2 : x ≤ p / 2 <;> by_cases hy2 : y ≤ p / 2
  · rw [permuteQPR_low hx hx2, permuteQPR_low hy hy2] at heq
    rcases hsq_case heq with h | h
    · exact h
    · have hlt : x + y < p := by omega
      have := Nat.eq_zero_of_dvd_of_lt h (by omega)
      omega
  · rw [permuteQPR_low hx hx2, permuteQPR_high hy (by omega)] at heq
    exact (permuteQPR_cross_absurd hp hp4 hx hy (by omega) heq).elim
  · rw [permuteQPR_high hx (by omega), permuteQPR_low hy hy2] at heq
    exact (permuteQPR_cross_absurd hp hp4 hy hx (by omega) heq.symm).elim
  · rw [permuteQPR_high hx (by omega), permuteQPR_high hy (by omega)] at heq
    have hxr : x * x % p < p := Nat.mod_lt _ (by omega)
    have hyr : y * y % p < p := Nat.mod_lt _ (by omega)
    have hss : x * x % p = y * y % p := by omega
    rcases hsq_case hss with h | h
    · exact h
    · have h1 : p < x + y := by omega
      have hsub : p ∣ (x + y - p) := Nat.dvd_sub' h (dvd_refl p)
      have hpos : 0 < x + y - p := by omega
      have := Nat.le_of_dvd hpos hsub
      omega

/-!  The scan window: over any `p` consecutive index positions the doubled
permutation enumerates `[0, p)` exactly once.  -/

theorem scan_map_perm (p : ℕ) (hp : p.Prime) (hp4 : p % 4 = 3) (a : ℕ) :
    ((List.range p).map fun k => permuteQPR p (permuteQPR p ((a + k) % p))).Perm
      (List.range p) := by
  have hplt : ∀ k : ℕ, (a + k) % p < p := fun k => Nat.mod_lt _ hp.pos
  have hlt : ∀ k : ℕ, permuteQPR p (permuteQPR p ((a + k) % p)) < p :=
    fun k => permuteQPR_lt hp (permuteQPR_lt hp (hplt k))
  have hinj : ∀ k1, k1 < p → ∀ k2, k2 < p →
      permuteQPR p (permuteQPR p ((a + k1) % p)) = permuteQPR p (permuteQPR p ((a + k2) % p)) →
      k1 = k2 := by
    intro k1 h1 k2 h2 heq
    have e1 := permuteQPR_injOn hp hp4 (permuteQPR_lt hp (hplt k1))
      (permuteQPR_lt hp (hplt k2)) heq
    have e2 : (a + k1) % p = (a + k2) % p :=
      permuteQPR_injOn hp hp4 (hplt k1) (hplt k2) e1
    have h3 : k1 % p = k2 % p := Nat.ModEq.add_left_cancel' a e2
    rwa [Nat.mod_eq_of_lt h1, Nat.mod_eq_of_lt h2] at h3
  have hnd : ((List.range p).map
      fun k => permuteQPR p (permuteQPR p ((a + k) % p))).Nodup := by
    apply List.Nodup.map_on ?_ (List.nodup_range p)
    intro k1 hk1 k2 hk2
    exact hinj k1 (List.mem_range.mp hk1) k2 (List.mem_range.mp hk2)
  apply List.perm_of_nodup_nodup_toFinset_eq hnd (List.nodup_range p)
  apply Finset.eq_of_subset_of_card_le
  · intro v hv
    rw [List.mem_toFinset] at hv ⊢
    obtain ⟨k, hk, rfl⟩ := List.mem_map.mp hv
    exact List.mem_range.mpr (hlt k)
  · rw [List.toFinset_card_of_nodup hnd, List.toFinset_card_of_nodup (List.nodup_range p),
      List.length_map, List.length_range]

theorem filter_range_le (r : ℕ) : ∀ p, r < p →
    (List.range p).filter (fun v => decide (v ≤ r)) = List.range (r + 1) := by
  intro p
  induction p with
  | zero => omega
  | succ p ih =>
    intro hrp
    rw [List.range_succ, List.filter_append]
    rcases Nat.lt_or_ge r p with h | h
    · rw [ih h]
      have hnil : List.filter (fun v => decide (v ≤ r)) [p] = [] := by
        simp
        omega
      rw [hnil, List.append_nil]
    · have hrp' : r = p := by omega
      subst hrp'
      have h1 : List.filter (fun v => decide (v ≤ r)) (List.range r) = List.range r := by
        rw [List.filter_eq_self]
        intro v hv
        simp only [decide_eq_true_eq]
        exact Nat.le_of_lt (List.mem_range.mp hv)
      have h2' : List.filter (fun v => decide (v ≤ r)) [r] = [r] := by simp
      rw [h1, h2', ← List.range_succ]

theorem scan_filter_perm (p r : ℕ) (hp : p.Prime) (hp4 : p % 4 = 3) (hr : r < p) (a : ℕ) :
    (((List.range p).map fun k => permuteQPR p (permuteQPR p ((a + k) % p))).filter
        (fun v => decide (v ≤ r))).Perm (List.range (r + 1)) := by
  have := (scan_map_perm p hp hp4 a).filter (fun v => decide (v ≤ r))
  rwa [filter_range_le r p hr] at this

/-!  The rejection loop of `next()`: it returns the first accepted candidate of
the index scan and leaves the index one past it.  -/

theorem exists_offset {p : ℕ} (hp : 0 < p) (a j : ℕ) (hj : j < p) :
    ∃ k, k < p ∧ (a + k) % p = j := by
  have hap : a % p < p := Nat.mod_lt _ hp
  by_cases hc : a % p ≤ j
  · refine ⟨j - a % p, by omega, ?_⟩
    rw [← Nat.mod_add_mod, show a % p + (j - a % p) = j from by omega, Nat.mod_eq_of_lt hj]
  · refine ⟨p + j - a % p, by omega, ?_⟩
    rw [← Nat.mod_add_mod, show a % p + (p + j - a % p) = p + j from by omega,
      Nat.add_mod_left, Nat.mod_eq_of_lt hj]

theorem accept_exists (p r a : ℕ) (hp : 0 < p) :
    ∃ k, permuteQPR p (permuteQPR p ((a + k) % p)) ≤ r := by
  obtain ⟨k, _, hk⟩ := exists_offset hp a 0 hp
  refine ⟨k, ?_⟩
  rw [hk, permuteQPR_zero hp, permuteQPR_zero hp]
  exact Nat.zero_le r

theorem accept_find_lt (p r a : ℕ) (hp : 0 < p)
    (hK : ∃ k, permuteQPR p (permuteQPR p ((a + k) % p)) ≤ r) : Nat.find hK < p := by
  obtain ⟨k, hklt, hk⟩ := exists_offset hp a 0 hp
  have hacc : permuteQPR p (permuteQPR p ((a + k) % p)) ≤ r := by
    rw [hk, permuteQPR_zero hp, permuteQPR_zero hp]
    exact Nat.zero_le r
  exact lt_of_le_of_lt (Nat.find_min' hK hacc) hklt

theorem accept_find_le (p r a : ℕ) (hp3 : 3 ≤ p) (hr : 1 ≤ r)
    (hK : ∃ k, permuteQPR p (permuteQPR p ((a + k) % p)) ≤ r) :
    Nat.find hK ≤ p - 2 := by
  obtain ⟨k0, hk0lt, hk0⟩ := exists_offset (p := p) (by omega) a 0 (by omega)
  obtain ⟨k1, hk1lt, hk1⟩ := exists_offset (p := p) (by omega) a 1 (by omega)
  have h0 : permuteQPR p (permuteQPR p ((a + k0) % p)) ≤ r := by
    rw [hk0, permuteQPR_zero (by omega), permuteQPR_zero (by omega)]
    exact Nat.zero_le r
  have h1 : permuteQPR p (permuteQPR p ((a + k1) % p)) ≤ r := by
    rw [hk1, permuteQPR_one hp3, permuteQPR_one hp3]
    exact hr
  have hne : k0 ≠ k1 := by
    intro h
    rw [h, hk1] at hk0
    omega
  have hf0 := Nat.find_min' hK h0
  have hf1 := Nat.find_min' hK h1
  omega

theorem nextAux_spec (p r : ℕ) :
    ∀ fuel a, a < p →
      (hK : ∃ k, permuteQPR p (permuteQPR p ((a + k) % p)) ≤ r) →
      Nat.find hK ≤ fuel →
      nextAux p r fuel a =
        (permuteQPR p (permuteQPR p ((a + Nat.find hK) % p)),
          (a + Nat.find hK + 1) % p) := by
  intro fuel
  induction fuel with
  | zero =>
    intro a ha hK hle
    have h0 : Nat.find hK = 0 := by omega
    rw [h0]
    have ha0 : (a + 0) % p = a := by rw [Nat.add_zero, Nat.mod_eq_of_lt ha]
    rw [ha0]
    rfl
  | succ fuel ih =>
    intro a ha hK hle
    by_cases hacc : permuteQPR p (permuteQPR p a) ≤ r
    · have h0 : Nat.find hK = 0 := by
        rw [Nat.find_eq_zero]
        show permuteQPR p (permuteQPR p ((a + 0) % p)) ≤ r
        rwa [Nat.add_zero, Nat.mod_eq_of_lt ha]
      rw [h0]
      have hstep : nextAux p r (fuel + 1) a
          = (permuteQPR p (permuteQPR p a), (a + 1) % p) := by
        show (if permuteQPR p (permuteQPR p a) > r then nextAux p r fuel ((a + 1) % p)
          else (permuteQPR p (permuteQPR p a), (a + 1) % p)) = _
        rw [if_neg (by omega)]
      rw [hstep]
      have ha0 : (a + 0) % p = a := by rw [Nat.add_zero, Nat.mod_eq_of_lt ha]
      rw [ha0]
    · have hp0 : 0 < p := by omega
      have hfind_pos : 0 < Nat.find hK := by
        rcases Nat.eq_zero_or_pos (Nat.find hK) with h0 | h
        · exfalso
          have hspec := Nat.find_spec hK
          rw [h0, Nat.add_zero, Nat.mod_eq_of_lt ha] at hspec
          omega
        · exact h
      have hshift : ∀ k, ((a + 1) % p + k) % p = (a + (k + 1)) % p := by
        intro k
        rw [Nat.mod_add_mod]
        congr 1
        omega
      have hK' : ∃ k, permuteQPR p (permuteQPR p (((a + 1) % p + k) % p)) ≤ r := by
        refine ⟨Nat.find hK - 1, ?_⟩
        rw [hshift, show Nat.find hK - 1 + 1 = Nat.find hK from by omega]
        exact Nat.find_spec hK
      have hfind' : Nat.find hK' = Nat.find hK - 1 := by
        have hle1 : Nat.find hK' ≤ Nat.find hK - 1 := by
          apply Nat.find_min'
          rw [hshift, show Nat.find hK - 1 + 1 = Nat.find hK from by omega]
          exact Nat.find_spec hK
        have hle2 : Nat.find hK ≤ Nat.find hK' + 1 := by
          apply Nat.find_min'
          have hspec := Nat.find_spec hK'
          rwa [hshift] at hspec
        omega
      have hstep : nextAux p r (fuel + 1) a = nextAux p r fuel ((a + 1) % p) := by
        show (if permuteQPR p (permuteQPR p a) > r then nextAux p r fuel ((a + 1) % p)
          else (permuteQPR p (permuteQPR p a), (a + 1) % p)) = _
        rw [if_pos (by omega)]
      rw [hstep, ih ((a + 1) % p) (Nat.mod_lt _ hp0) hK' (by omega), hfind', hshift,
        show Nat.find hK - 1 + 1 = Nat.find hK from by omega]
      have hsnd : ((a + 1) % p + (Nat.find hK - 1) + 1) % p = (a + Nat.find hK + 1) % p := by
        rw [show (a + 1) % p + (Nat.find hK - 1) + 1 = (a + 1) % p + Nat.find hK from by omega,
          Nat.mod_add_mod]
        congr 1
        omega
      rw [hsnd]

theorem next_eq (g : UniqueSeq) (ha : g.m_index < g.m_prime)
    (hK : ∃ k, permuteQPR g.m_prime
      (permuteQPR g.m_prime ((g.m_index + k) % g.m_prime)) ≤ g.m_range) :
    g.next = (permuteQPR g.m_prime
        (permuteQPR g.m_prime ((g.m_index + Nat.find hK) % g.m_prime)),
      { g with m_index := (g.m_index + Nat.find hK + 1) % g.m_prime }) := by
  have hp0 : 0 < g.m_prime := by omega
  have hb := accept_find_lt g.m_prime g.m_range g.m_index hp0 hK
  show ((nextAux g.m_prime g.m_range (g.m_prime + 1) g.m_index).1,
    { g with m_index := (nextAux g.m_prime g.m_range (g.m_prime + 1) g.m_index).2 }) = _
  rw [nextAux_spec g.m_prime g.m_range (g.m_prime + 1) g.m_index ha hK (by omega)]

theorem next_unaligned (g : UniqueSeq) (hp0 : 0 < g.m_prime) (ha : g.m_prime ≤ g.m_index)
    (hr : g.m_range < g.m_index) :
    g.next = ({ g with m_index := (g.m_index + 1) % g.m_prime } : UniqueSeq).next := by
  have hci : permuteQPR g.m_prime (permuteQPR g.m_prime g.m_index) = g.m_index := by
    rw [permuteQPR_of_ge ha, permuteQPR_of_ge ha]
  have hstep : nextAux g.m_prime g.m_range (g.m_prime + 1) g.m_index
      = nextAux g.m_prime g.m_range g.m_prime ((g.m_index + 1) % g.m_prime) := by
    show (if permuteQPR g.m_prime (permuteQPR g.m_prime g.m_index) > g.m_range
      then nextAux g.m_prime g.m_range g.m_prime ((g.m_index + 1) % g.m_prime)
      else (permuteQPR g.m_prime (permuteQPR g.m_prime g.m_index),
        (g.m_index + 1) % g.m_prime)) = _
    rw [if_pos (by rw [hci]; omega)]
  have ha' : (g.m_index + 1) % g.m_prime < g.m_prime := Nat.mod_lt _ hp0
  have hK' : ∃ k, permuteQPR g.m_prime
      (permuteQPR g.m_prime (((g.m_index + 1) % g.m_prime + k) % g.m_prime)) ≤ g.m_range :=
    accept_exists g.m_prime g.m_range _ hp0
  have hb := accept_find_lt g.m_prime g.m_range ((g.m_index + 1) % g.m_prime) hp0 hK'
  show ((nextAux g.m_prime g.m_range (g.m_prime + 1) g.m_index).1,
      { g with m_index := (nextAux g.m_prime g.m_range (g.m_prime + 1) g.m_index).2 })
    = ((nextAux g.m_prime g.m_range (g.m_prime + 1) ((g.m_index + 1) % g.m_prime)).1,
      { g with m_index :=
        (nextAux g.m_prime g.m_range (g.m_prime + 1) ((g.m_index + 1) % g.m_prime)).2 })
  rw [hstep, nextAux_spec g.m_prime g.m_range g.m_prime _ ha' hK' (by omega),
    nextAux_spec g.m_prime g.m_range (g.m_prime + 1) _ ha' hK' (by omega)]

theorem nexts_succ (g : UniqueSeq) (n : ℕ) :
    g.nexts (n + 1) = (g.next).1 :: (g.next).2.nexts n := rfl

theorem nexts_unaligned (g : UniqueSeq) (hp0 : 0 < g.m_prime) (ha : g.m_prime ≤ g.m_index)
    (hr : g.m_range < g.m_index) (n : ℕ) :
    g.nexts n = ({ g with m_index := (g.m_index + 1) % g.m_prime } : UniqueSeq).nexts n := by
  cases n with
  | zero => rfl
  | succ n => rw [nexts_succ, nexts_succ, next_unaligned g hp0 ha hr]

theorem nexts_take : ∀ n (g : UniqueSeq) (m : ℕ), g.nexts n = (g.nexts (n + m)).take n := by
  intro n
  induction n with
  | zero => intro g m; rfl
  | succ n ih =>
    intro g m
    rw [show n + 1 + m = (n + m) + 1 from by omega, nexts_succ, nexts_succ,
      List.take_succ_cons, ← ih (g.next).2 m]

/-!  One accepted output consumes a prefix of the scan window ending at the
accepted position; the remaining outputs read the rotated window.  -/

theorem range_split (p m : ℕ) (hm : m ≤ p) :
    List.range p = List.range m ++ (List.range (p - m)).map (m + ·) := by
  calc List.range p = List.range' 0 p := List.range_eq_range' p
    _ = List.range' 0 ((p - m) + m) := by congr 1; omega
    _ = List.range' 0 m ++ List.range' (0 + m) (p - m) :=
        (List.range'_append_1 0 m (p - m)).symm
    _ = List.range m ++ (List.range (p - m)).map (m + ·) := by
        rw [show 0 + m = m from by omega, ← List.range_eq_range' m,
          List.range'_eq_map_range]

theorem filter_window_step (p r a : ℕ) (hp : p.Prime) (hp4 : p % 4 = 3) (hr : r < p)
    (_ha : a < p)
    (hK : ∃ k, permuteQPR p (permuteQPR p ((a + k) % p)) ≤ r) :
    ∀ n, n ≤ r →
    (((List.range p).map fun k => permuteQPR p (permuteQPR p ((a + k) % p))).filter
        (fun v => decide (v ≤ r))).take (n + 1)
      = permuteQPR p (permuteQPR p ((a + Nat.find hK) % p)) ::
        (((List.range p).map fun k =>
            permuteQPR p (permuteQPR p (((a + Nat.find hK + 1) % p + k) % p))).filter
          (fun v => decide (v ≤ r))).take n := by
  intro n hn
  have hKlt : Nat.find hK < p := accept_find_lt p r a hp.pos hK
  have hKacc : permuteQPR p (permuteQPR p ((a + Nat.find hK) % p)) ≤ r := Nat.find_spec hK
  have hKmin : ∀ j, j < Nat.find hK → ¬ permuteQPR p (permuteQPR p ((a + j) % p)) ≤ r :=
    fun j hj => Nat.find_min hK hj
  -- window over `a`: first K+1 positions, then L more
  have hWa : (List.range p).map (fun k => permuteQPR p (permuteQPR p ((a + k) % p)))
      = (List.range (Nat.find hK + 1)).map
          (fun k => permuteQPR p (permuteQPR p ((a + k) % p)))
        ++ (List.range (p - (Nat.find hK + 1))).map
          (fun k => permuteQPR p (permuteQPR p (((a + Nat.find hK + 1) % p + k) % p))) := by
    rw [range_split p (Nat.find hK + 1) (by omega), List.map_append, List.map_map]
    congr 1
    apply List.map_congr_left
    intro t _
    simp only [Function.comp]
    have hmm : ((a + Nat.find hK + 1) % p + t) % p = (a + (Nat.find hK + 1 + t)) % p := by
      rw [Nat.mod_add_mod]
      congr 1
      omega
    rw [hmm]
  -- window over the rotated start: first L positions agree with the tail above,
  -- the last K+1 positions repeat the head of the `a` window
  have hWa' : (List.range p).map
        (fun k => permuteQPR p (permuteQPR p (((a + Nat.find hK + 1) % p + k) % p)))
      = (List.range (p - (Nat.find hK + 1))).map
          (fun k => permuteQPR p (permuteQPR p (((a + Nat.find hK + 1) % p + k) % p)))
        ++ (List.range (Nat.find hK + 1)).map
          (fun k => permuteQPR p (permuteQPR p ((a + k) % p))) := by
    rw [range_split p (p - (Nat.find hK + 1)) (by omega), List.map_append, List.map_map,
      show p - (p - (Nat.find hK + 1)) = Nat.find hK + 1 from by omega]
    congr 1
    apply List.map_congr_left
    intro t _
    simp only [Function.comp]
    have hmm : ((a + Nat.find hK + 1) % p + (p - (Nat.find hK + 1) + t)) % p
        = (a + t) % p := by
      rw [Nat.mod_add_mod,
        show a + Nat.find hK + 1 + (p - (Nat.find hK + 1) + t) = (a + t) + p from by omega,
        Nat.add_mod_right]
    rw [hmm]
  -- the filtered head of the `a` window is exactly the accepted value
  have hfA : ((List.range (Nat.find hK + 1)).map
        (fun k => permuteQPR p (permuteQPR p ((a + k) % p)))).filter
        (fun v => decide (v ≤ r))
      = [permuteQPR p (permuteQPR p ((a + Nat.find hK) % p))] := by
    rw [List.range_succ, List.map_append, List.filter_append]
    have h1 : ((List.range (Nat.find hK)).map
        (fun k => permuteQPR p (permuteQPR p ((a + k) % p)))).filter
        (fun v => decide (v ≤ r)) = [] := by
      rw [List.filter_eq_nil_iff]
      intro v hv
      obtain ⟨j, hj, rfl⟩ := List.mem_map.mp hv
      simp only [decide_eq_true_eq]
      exact hKmin j (List.mem_range.mp hj)
    have h2 : (([Nat.find hK]).map
        (fun k => permuteQPR p (permuteQPR p ((a + k) % p)))).filter
        (fun v => decide (v ≤ r))
        = [permuteQPR p (permuteQPR p ((a + Nat.find hK) % p))] := by
      simp only [List.map_cons, List.map_nil, List.filter_cons, decide_eq_true_eq]
      rw [if_pos hKacc]
      rfl
    rw [h1, h2, List.nil_append]
  -- length of the filtered rotated tail
  have hperm' := scan_filter_perm p r hp hp4 hr ((a + Nat.find hK + 1) % p)
  have hlen' : (((List.range p).map
      (fun k => permuteQPR p (permuteQPR p (((a + Nat.find hK + 1) % p + k) % p)))).filter
      (fun v => decide (v ≤ r))).length = r + 1 := by
    rw [hperm'.length_eq, List.length_range]
  have hlenB : (((List.range (p - (Nat.find hK + 1))).map
      (fun k => permuteQPR p (permuteQPR p (((a + Nat.find hK + 1) % p + k) % p)))).filter
      (fun v => decide (v ≤ r))).length = r := by
    rw [hWa', List.filter_append, List.length_append, hfA] at hlen'
    simp only [List.length_singleton] at hlen'
    omega
  -- assemble both sides
  rw [hWa, List.filter_append, hfA, List.singleton_append, List.take_succ_cons,
    hWa', List.filter_append, hfA,
    List.take_append_of_le_length (by rw [hlenB]; exact hn)]

theorem nexts_eq_filter_take (p r o : ℕ) (hp : p.Prime) (hp4 : p % 4 = 3) (hr : r < p) :
    ∀ n a, a < p → n ≤ r + 1 →
      (UniqueSeq.mk a o p r).nexts n =
        (((List.range p).map fun k => permuteQPR p (permuteQPR p ((a + k) % p))).filter
          (fun v => decide (v ≤ r))).take n := by
  intro n
  induction n with
  | zero =>
    intro a ha hn
    rfl
  | succ n ih =>
    intro a ha hn
    have hK : ∃ k, permuteQPR p (permuteQPR p ((a + k) % p)) ≤ r :=
      accept_exists p r a hp.pos
    have hnext := next_eq (UniqueSeq.mk a o p r) ha hK
    have hcons : (UniqueSeq.mk a o p r).nexts (n + 1)
        = permuteQPR p (permuteQPR p ((a + Nat.find hK) % p)) ::
          (UniqueSeq.mk ((a + Nat.find hK + 1) % p) o p r).nexts n := by
      rw [nexts_succ, hnext]
    have ha' : (a + Nat.find hK + 1) % p < p := Nat.mod_lt _ hp.pos
    rw [hcons, ih ((a + Nat.find hK + 1) % p) ha' (by omega)]
    exact (filter_window_step p r a hp hp4 hr ha hK n (by omega)).symm

theorem nexts_perm_aligned (p r o a : ℕ) (hp : p.Prime) (hp4 : p % 4 = 3) (hr : r < p)
    (ha : a < p) :
    ((UniqueSeq.mk a o p r).nexts (r + 1)).Perm (List.range (r + 1)) := by
  rw [nexts_eq_filter_take p r o hp hp4 hr (r + 1) a ha le_rfl]
  have hperm := scan_filter_perm p r hp hp4 hr a
  have hlen : (((List.range p).map
      (fun k => permuteQPR p (permuteQPR p ((a + k) % p)))).filter
      (fun v => decide (v ≤ r))).length = r + 1 := by
    rw [hperm.length_eq, List.length_range]
  rw [List.take_of_length_le (le_of_eq hlen)]
  exact hperm

theorem nexts_perm_state (g : UniqueSeq) (hp : g.m_prime.Prime) (hp4 : g.m_prime % 4 = 3)
    (hr : g.m_range < g.m_prime) :
    (g.nexts (g.m_range + 1)).Perm (List.range (g.m_range + 1)) := by
  rcases Nat.lt_or_ge g.m_index g.m_prime with ha | ha
  · exact nexts_perm_aligned g.m_prime g.m_range g.m_intermediateOffset g.m_index
      hp hp4 hr ha
  · rw [nexts_unaligned g hp.pos ha (by omega)]
    exact nexts_perm_aligned g.m_prime g.m_range g.m_intermediateOffset
      ((g.m_index + 1) % g.m_prime) hp hp4 hr (Nat.mod_lt _ hp.pos)

theorem nexts_nodup_prefix (g : UniqueSeq) (hp : g.m_prime.Prime)
    (hp4 : g.m_prime % 4 = 3) (hr : g.m_range < g.m_prime) :
    ∀ k, k ≤ g.m_range + 1 → (g.nexts k).Nodup := by
  intro k hk
  have hperm := nexts_perm_state g hp hp4 hr
  have hnd : (g.nexts (g.m_range + 1)).Nodup :=
    hperm.nodup_iff.mpr (List.nodup_range _)
  have htake := nexts_take k g (g.m_range + 1 - k)
  rw [show k + (g.m_range + 1 - k) = g.m_range + 1 from by omega] at htake
  rw [htake]
  exact hnd.sublist (List.take_sublist _ _)

/-!  Frame facts about `next()` and bounds on the produced values.  -/

theorem next_frame (g : UniqueSeq) :
    (g.next).2.m_prime = g.m_prime ∧ (g.next).2.m_range = g.m_range ∧
      (g.next).2.m_intermediateOffset = g.m_intermediateOffset :=
  ⟨rfl, rfl, rfl⟩

theorem nextAux_snd_lt (p r : ℕ) (hp0 : 0 < p) :
    ∀ fuel i, (nextAux p r fuel i).2 < p := by
  intro fuel
  induction fuel with
  | zero => intro i; exact Nat.mod_lt _ hp0
  | succ fuel ih =>
    intro i
    show (if permuteQPR p (permuteQPR p i) > r then nextAux p r fuel ((i + 1) % p)
      else (permuteQPR p (permuteQPR p i), (i + 1) % p)).2 < p
    by_cases h : permuteQPR p (permuteQPR p i) > r
    · rw [if_pos h]; exact ih _
    · rw [if_neg h]; exact Nat.mod_lt _ hp0

theorem next_index_lt (g : UniqueSeq) (hp0 : 0 < g.m_prime) :
    (g.next).2.m_index < g.m_prime :=
  nextAux_snd_lt g.m_prime g.m_range hp0 (g.m_prime + 1) g.m_index

theorem next_fst_le (g : UniqueSeq) (hp0 : 0 < g.m_prime) : (g.next).1 ≤ g.m_range := by
  rcases Nat.lt_or_ge g.m_index g.m_prime with ha | ha
  · have hK : ∃ k, permuteQPR g.m_prime
        (permuteQPR g.m_prime ((g.m_index + k) % g.m_prime)) ≤ g.m_range :=
      accept_exists _ _ _ hp0
    rw [next_eq g ha hK]
    exact Nat.find_spec hK
  · by_cases hr : g.m_range < g.m_index
    · rw [next_unaligned g hp0 ha hr]
      have ha' : (g.m_index + 1) % g.m_prime < g.m_prime := Nat.mod_lt _ hp0
      have hK : ∃ k, permuteQPR g.m_prime (permuteQPR g.m_prime
          (((g.m_index + 1) % g.m_prime + k) % g.m_prime)) ≤ g.m_range :=
        accept_exists _ _ _ hp0
      rw [next_eq _ ha' hK]
      exact Nat.find_spec hK
    · push_neg at hr
      have hci : permuteQPR g.m_prime (permuteQPR g.m_prime g.m_index) = g.m_index := by
        rw [permuteQPR_of_ge ha, permuteQPR_of_ge ha]
      have hstep : nextAux g.m_prime g.m_range (g.m_prime + 1) g.m_index
          = (g.m_index, (g.m_index + 1) % g.m_prime) := by
        show (if permuteQPR g.m_prime (permuteQPR g.m_prime g.m_index) > g.m_range
          then nextAux g.m_prime g.m_range g.m_prime ((g.m_index + 1) % g.m_prime)
          else (permuteQPR g.m_prime (permuteQPR g.m_prime g.m_index),
            (g.m_index + 1) % g.m_prime)) = _
        rw [if_neg (by rw [hci]; omega), hci]
      have hval : (g.next).1 = g.m_index := by
        show (nextAux g.m_prime g.m_range (g.m_prime + 1) g.m_index).1 = _
        rw [hstep]
      rw [hval]
      exact hr

theorem nexts_all_le : ∀ n (g : UniqueSeq), 0 < g.m_prime →
    ∀ v, v ∈ g.nexts n → v ≤ g.m_range := by
  intro n
  induction n with
  | zero =>
    intro g _ v hv
    simp [UniqueSeq.nexts] at hv
  | succ n ih =>
    intro g hp0 v hv
    rw [nexts_succ] at hv
    rcases List.mem_cons.mp hv with rfl | hv
    · exact next_fst_le g hp0
    · exact ih (g.next).2 hp0 v hv

theorem afterN_m_prime (g : UniqueSeq) : ∀ n, (g.afterN n).m_prime = g.m_prime := by
  intro n
  induction n with
  | zero => rfl
  | succ n ih =>
    show ((g.afterN n).next).2.m_prime = _
    rw [← ih]
    rfl

theorem afterN_m_range (g : UniqueSeq) : ∀ n, (g.afterN n).m_range = g.m_range := by
  intro n
  induction n with
  | zero => rfl
  | succ n ih =>
    show ((g.afterN n).next).2.m_range = _
    rw [← ih]
    rfl

/-!  Constructor field values.  -/

theorem U32_eq : U32 = 4294967296 := rfl

theorem make_m_range (range seed : ℕ) :
    (UniqueSeq.make range seed).m_range = range % U32 := rfl

theorem make_m_prime (range seed : ℕ) (h : range % U32 ≤ 4294967291) :
    (UniqueSeq.make range seed).m_prime
      = get_next_suitable_prime (range % U32) % U32 := by
  show (if range % U32 > 4294967291 then 4294967291
    else get_next_suitable_prime (range % U32)) % U32 = _
  rw [if_neg (by omega)]

theorem make_m_prime_cap (range seed : ℕ) (h : 4294967291 < range % U32) :
    (UniqueSeq.make range seed).m_prime = 4294967291 := by
  show (if range % U32 > 4294967291 then 4294967291
    else get_next_suitable_prime (range % U32)) % U32 = _
  rw [if_pos h]
  rfl

theorem make_eq_of_gnsp (range seed P : ℕ) (hle : range % U32 ≤ 4294967291)
    (hg : get_next_suitable_prime (range % U32) = P) :
    UniqueSeq.make range seed = UniqueSeq.mk
      (permuteQPR (P % U32)
        ((permuteQPR (P % U32) (seed % U32) + 2 * (P % U32) + (U32 - range % U32)) % U32))
      ((P % U32 + (U32 - range % U32)) % U32) (P % U32) (range % U32) := by
  simp only [UniqueSeq.make]
  rw [if_neg (by omega), hg]

theorem make_10_1 : UniqueSeq.make 10 1 = UniqueSeq.mk 13 1 11 10 := by decide

theorem make_4294967291_1 :
    UniqueSeq.make 4294967291 1 = UniqueSeq.mk 36 20 15 4294967291 := by
  rw [make_eq_of_gnsp 4294967291 1 4294967311 (by decide) gnsp_4294967291]
  decide

theorem make_5000000000_1 :
    UniqueSeq.make 5000000000 1 = UniqueSeq.mk 705032735 15 705032719 705032704 := by
  rw [make_eq_of_gnsp 5000000000 1 705032719 (by decide) gnsp_705032704]
  decide

theorem make_m_prime_one (s : ℕ) : (UniqueSeq.make 1 s).m_prime = 7 := by
  rw [make_m_prime 1 s (by decide)]
  rfl

theorem make_m_prime_zero (s : ℕ) : (UniqueSeq.make 0 s).m_prime = 7 := by
  rw [make_m_prime 0 s (by decide)]
  rfl

theorem make_m_prime_mid (R s : ℕ) (h2 : 2 ≤ R) (hle : R ≤ 4294967290) :
    (UniqueSeq.make R s).m_prime = leastSuitableGT R := by
  have hRU : R % U32 = R := Nat.mod_eq_of_lt (by rw [U32_eq]; omega)
  rw [make_m_prime R s (by rw [hRU]; omega), hRU]
  by_cases h3 : 3 ≤ R
  · rw [get_next_suitable_prime_eq_least R h3 hle]
    have hcap : leastSuitableGT R ≤ 4294967291 :=
      leastSuitableGT_min (by omega) prime_4294967291 (by norm_num)
    exact Nat.mod_eq_of_lt (by rw [U32_eq]; omega)
  · have hR2 : R = 2 := by omega
    subst hR2
    have hl : leastSuitableGT 2 = 3 :=
      leastSuitableGT_eq (by norm_num) (by norm_num) (by norm_num)
        (fun q hq1 hq2 _ => absurd hq1 (by omega))
    rw [hl]
    rfl

theorem suitable_mod_u32 {P : ℕ} (h : P % 4 = 3) : P % U32 % 4 = 3 := by
  rw [U32_eq, Nat.mod_mod_of_dvd P (by norm_num : (4 : ℕ) ∣ 4294967296), h]

theorem make_prime_mod4 (range seed : ℕ) :
    (UniqueSeq.make range seed).m_prime % 4 = 3 := by
  by_cases hcap : 4294967291 < range % U32
  · rw [make_m_prime_cap range seed hcap]
  · push_neg at hcap
    rw [make_m_prime range seed hcap]
    apply suitable_mod_u32
    by_cases h3 : 3 ≤ range % U32 ∧ range % U32 ≤ 4294967290
    · rw [get_next_suitable_prime_eq_least (range % U32) h3.1 h3.2]
      exact (leastSuitableGT_spec (range % U32)).2.2
    · have hsplit : range % U32 ≤ 2 ∨ range % U32 = 4294967291 := by omega
      rcases hsplit with h | h

      · have h0 : range % U32 = 0 ∨ range % U32 = 1 ∨ range % U32 = 2 := by omega
        rcases h0 with h | h | h <;> rw [h] <;> decide
      · rw [h, gnsp_4294967291]

theorem make_prime_ge3 (range seed : ℕ) : 3 ≤ (UniqueSeq.make range seed).m_prime := by
  have h := make_prime_mod4 range seed
  omega

theorem make_range_facts (R s : ℕ) (h1 : 1 ≤ R) (hle : R ≤ 4294967290) :
    (UniqueSeq.make R s).m_prime.Prime ∧
    (UniqueSeq.make R s).m_range < (UniqueSeq.make R s).m_prime ∧
    (UniqueSeq.make R s).m_range = R := by
  have hRU : R % U32 = R := Nat.mod_eq_of_lt (by rw [U32_eq]; omega)
  have hrange : (UniqueSeq.make R s).m_range = R := by rw [make_m_range, hRU]
  by_cases h2 : 2 ≤ R
  · have hp := make_m_prime_mid R s h2 hle
    obtain ⟨hgt, hpr, _⟩ := leastSuitableGT_spec R
    refine ⟨by rw [hp]; exact hpr, by rw [hp, hrange]; exact hgt, hrange⟩
  · have hR1 : R = 1 := by omega
    subst hR1
    refine ⟨by rw [make_m_prime_one]; norm_num,
      by rw [make_m_prime_one, hrange]; norm_num, hrange⟩

theorem nextAux_of_accept (p r i : ℕ) (h : permuteQPR p (permuteQPR p i) ≤ r) :
    ∀ fuel, nextAux p r fuel i = (permuteQPR p (permuteQPR p i), (i + 1) % p) := by
  intro fuel
  cases fuel with
  | zero => rfl
  | succ fuel =>
    show (if permuteQPR p (permuteQPR p i) > r then nextAux p r fuel ((i + 1) % p)
      else (permuteQPR p (permuteQPR p i), (i + 1) % p)) = _
    rw [if_neg (by omega)]

theorem nextAux_of_reject (p r i : ℕ) (h : r < permuteQPR p (permuteQPR p i)) (fuel : ℕ) :
    nextAux p r (fuel + 1) i = nextAux p r fuel ((i + 1) % p) := by
  show (if permuteQPR p (permuteQPR p i) > r then nextAux p r fuel ((i + 1) % p)
    else (permuteQPR p (permuteQPR p i), (i + 1) % p)) = _
  rw [if_pos h]

/-- The do-while of `next()` accepts within at most `m_prime` loop bodies: fuel
`m_prime - 1` (that is, `m_prime` executions of the body) already produces the
same result as the implementation's ample fuel. -/
theorem loop_fuel_bound (g : UniqueSeq) (hp3 : 3 ≤ g.m_prime) (hr1 : 1 ≤ g.m_range) :
    nextAux g.m_prime g.m_range (g.m_prime - 1) g.m_index
      = nextAux g.m_prime g.m_range (g.m_prime + 1) g.m_index := by
  rcases Nat.lt_or_ge g.m_index g.m_prime with ha | ha
  · have hK := accept_exists g.m_prime g.m_range g.m_index (by omega)
    have hflt := accept_find_lt g.m_prime g.m_range g.m_index (by omega) hK
    rw [nextAux_spec g.m_prime g.m_range (g.m_prime - 1) g.m_index ha hK (by omega),
      nextAux_spec g.m_prime g.m_range (g.m_prime + 1) g.m_index ha hK (by omega)]
  · have hci : permuteQPR g.m_prime (permuteQPR g.m_prime g.m_index) = g.m_index := by
      rw [permuteQPR_of_ge ha, permuteQPR_of_ge ha]
    by_cases hacc : g.m_index ≤ g.m_range
    · rw [nextAux_of_accept g.m_prime g.m_range g.m_index (by rw [hci]; omega),
        nextAux_of_accept g.m_prime g.m_range g.m_index (by rw [hci]; omega)]
    · push_neg at hacc
      have ha' : (g.m_index + 1) % g.m_prime < g.m_prime := Nat.mod_lt _ (by omega)
      have hK' := accept_exists g.m_prime g.m_range ((g.m_index + 1) % g.m_prime) (by omega)
      have hfle := accept_find_le g.m_prime g.m_range ((g.m_index + 1) % g.m_prime)
        hp3 hr1 hK'
      rw [show g.m_prime - 1 = (g.m_prime - 2) + 1 from by omega,
        nextAux_of_reject g.m_prime g.m_range g.m_index (by rw [hci]; omega) (g.m_prime - 2),
        nextAux_of_reject g.m_prime g.m_range g.m_index (by rw [hci]; omega) g.m_prime,
        nextAux_spec g.m_prime g.m_range (g.m_prime - 2) _ ha' hK' (by omega),
        nextAux_spec g.m_prime g.m_range g.m_prime _ ha' hK' (by omega)]

/-!  The claims.  -/

/-- C1 (amended).  For every range `R` with `1 ≤ R ≤ 4294967290` and every
seed, the first `R + 1` values returned by `next()` are a permutation of
`[0, R]` (pairwise distinct, each in `[0, R]`, every value hit exactly once),
and every prefix of `k ≤ R + 1` outputs is duplicate-free.  The original upper
bound `4294967291` fails: there the selected 64-bit prime `4294967311` is
truncated to the `unsigned int` `15` (see `C1_unique_period_cex`). -/
theorem C1_unique_period (R seed : ℕ) (h1 : 1 ≤ R) (h2 : R ≤ 4294967290) :
    (((UniqueSeq.make R seed).nexts (R + 1)).Perm (List.range (R + 1))) ∧
    ∀ k, k ≤ R + 1 → ((UniqueSeq.make R seed).nexts k).Nodup := by
  obtain ⟨hpr, hlt, hrng⟩ := make_range_facts R seed h1 h2
  have hp4 := make_prime_mod4 R seed
  constructor
  · have hperm := nexts_perm_state (UniqueSeq.make R seed) hpr hp4 hlt
    rwa [hrng] at hperm
  · intro k hk
    exact nexts_nodup_prefix (UniqueSeq.make R seed) hpr hp4 hlt k (by rw [hrng]; omega)

/-- C1, witness at `R = 10`, `seed = 1`: the first 11 outputs are a
permutation of `0..10` and all prefixes are duplicate-free. -/
theorem C1_unique_period_witness :
    ((1 ≤ 10 ∧ 10 ≤ 4294967290) ∧
      ((((UniqueSeq.make 10 1).nexts (10 + 1)).Perm (List.range (10 + 1))) ∧
        ∀ k, k ≤ 10 + 1 → ((UniqueSeq.make 10 1).nexts k).Nodup)) :=
  ⟨⟨by norm_num, by norm_num⟩, C1_unique_period 10 1 (by norm_num) (by norm_num)⟩

/-- C1, counterexample to the claim as stated: at `range = 4294967291` the
`size_t` prime `4294967311` is truncated to `m_prime = 15`, and already the
first 6 outputs contain a duplicate (`[36, 1, 14, 9, 10, 14]`), refuting
"any prefix of `k ≤ R+1` outputs is duplicate-free". -/
theorem C1_unique_period_cex : ¬ ((UniqueSeq.make 4294967291 1).nexts 6).Nodup := by
  rw [make_4294967291_1]
  decide

/-- C2 (confirmed).  For every prime `p ≡ 3 mod 4`, the map computed by
`permuteQPR` is a bijection from `[0, p)` onto `[0, p)`. -/
theorem C2_permuteQPR_bijOn (p : ℕ) (hp : p.Prime) (hp4 : p % 4 = 3) :
    Set.BijOn (permuteQPR p) (Set.Iio p) (Set.Iio p) := by
  refine ⟨fun x hx => permuteQPR_lt hp hx,
    fun x hx y hy h => permuteQPR_injOn hp hp4 hx hy h, ?_⟩
  intro j hj
  have hperm := scan_map_perm p hp hp4 0
  have hmem : j ∈ (List.range p).map fun k => permuteQPR p (permuteQPR p ((0 + k) % p)) :=
    hperm.mem_iff.mpr (List.mem_range.mpr hj)
  obtain ⟨k, hk, he⟩ := List.mem_map.mp hmem
  exact ⟨permuteQPR p ((0 + k) % p), permuteQPR_lt hp (Nat.mod_lt _ hp.pos), he⟩

/-- C2, witness at `p = 7`. -/
theorem C2_permuteQPR_bijOn_witness :
    (Nat.Prime 7 ∧ 7 % 4 = 3) ∧ Set.BijOn (permuteQPR 7) (Set.Iio 7) (Set.Iio 7) :=
  ⟨⟨by norm_num, by norm_num⟩, C2_permuteQPR_bijOn 7 (by norm_num) (by norm_num)⟩

/-- C3 (amended).  For `2 ≤ range ≤ 4294967290` the stored prime is the
smallest prime strictly greater than `range` congruent to `3 mod 4` — not the
smallest such prime `≥ range`: the probe starts at `__next_prime(range)`, so
`range` itself is skipped (counterexample `C3_prime_selection_cex` at
`range = 3`). -/
theorem C3_prime_selection (range seed : ℕ) (h2 : 2 ≤ range) (hle : range ≤ 4294967290) :
    (UniqueSeq.make range seed).m_prime = leastSuitableGT range ∧
      range < leastSuitableGT range ∧ (leastSuitableGT range).Prime ∧
      leastSuitableGT range % 4 = 3 ∧
      ∀ q, range < q → q < leastSuitableGT range → q.Prime → q % 4 ≠ 3 := by
  refine ⟨make_m_prime_mid range seed h2 hle, (leastSuitableGT_spec range).1,
    (leastSuitableGT_spec range).2.1, (leastSuitableGT_spec range).2.2, ?_⟩
  intro q hq1 hq2 hq hq4
  exact leastSuitableGT_not hq2 ⟨hq1, hq, hq4⟩

/-- C3, witness at `range = 10`, `seed = 1`. -/
theorem C3_prime_selection_witness :
    (2 ≤ 10 ∧ 10 ≤ 4294967290) ∧
      ((UniqueSeq.make 10 1).m_prime = leastSuitableGT 10 ∧
        10 < leastSuitableGT 10 ∧ (leastSuitableGT 10).Prime ∧
        leastSuitableGT 10 % 4 = 3 ∧
        ∀ q, 10 < q → q < leastSuitableGT 10 → q.Prime → q % 4 ≠ 3) :=
  ⟨⟨by norm_num, by norm_num⟩, C3_prime_selection 10 1 (by norm_num) (by norm_num)⟩

/-- C3, counterexample to the claim as stated: with `range = 3` the smallest
prime `p ≥ range` with `p % 4 = 3` is `3` itself, but the generator stores
`7`, because the probe chain is `__next_prime(3) = 5` (skipping `3`), then
`__next_prime(6) = 7`. -/
theorem C3_prime_selection_cex :
    (UniqueSeq.make 3 1).m_prime = 7 ∧ specSmallestSuitableGE 3 = 3 ∧
      (UniqueSeq.make 3 1).m_prime ≠ specSmallestSuitableGE 3 := by
  have h7 : (UniqueSeq.make 3 1).m_prime = 7 := by decide
  have h3 : specSmallestSuitableGE 3 = 3 :=
    specSmallestSuitableGE_eq (le_refl 3) (by norm_num) (by norm_num)
      (fun q hq1 hq2 _ => absurd hq1 (by omega))
  exact ⟨h7, h3, by rw [h7, h3]; norm_num⟩

/-- C4 (amended).  After every call to `next()` the index is reduced modulo
the prime, so `m_index < m_prime` holds after every produced value — but not
immediately after construction: the seed-mixing value can land on the
identity branch of `permuteQPR` (counterexample `C4_index_invariant_cex`:
`range = 10`, `seed = 1` gives `m_index = 13 ≥ 11 = m_prime`). -/
theorem C4_index_invariant (range seed n : ℕ) :
    (((UniqueSeq.make range seed).afterN n).next).2.m_index
      < (UniqueSeq.make range seed).m_prime := by
  have hp3 := make_prime_ge3 range seed
  have hpp := afterN_m_prime (UniqueSeq.make range seed) n
  have h := next_index_lt ((UniqueSeq.make range seed).afterN n) (by rw [hpp]; omega)
  rwa [hpp] at h

/-- C4, counterexample to the claim as stated: immediately after construction
with `range = 10`, `seed = 1` the index is `13`, not below the prime `11`. -/
theorem C4_index_invariant_cex :
    ¬ ((UniqueSeq.make 10 1).m_index < (UniqueSeq.make 10 1).m_prime) := by
  decide

/-- C5 (confirmed).  From any state with `m_index < m_prime`, `next()`
computes candidates by applying the permutation twice to the scanned index
(no offset added), advances the index by one mod the prime on every iteration
(accepted or not), rejects exactly the candidates exceeding `m_range`, and
returns the first candidate `≤ m_range`. -/
theorem C5_loop_structure (g : UniqueSeq) (hp0 : 0 < g.m_prime)
    (ha : g.m_index < g.m_prime) :
    ∃ K, (∀ j, j < K → g.m_range < permuteQPR g.m_prime
        (permuteQPR g.m_prime ((g.m_index + j) % g.m_prime))) ∧
      permuteQPR g.m_prime (permuteQPR g.m_prime ((g.m_index + K) % g.m_prime))
        ≤ g.m_range ∧
      g.next = (permuteQPR g.m_prime
          (permuteQPR g.m_prime ((g.m_index + K) % g.m_prime)),
        { g with m_index := (g.m_index + K + 1) % g.m_prime }) := by
  have hK : ∃ k, permuteQPR g.m_prime
      (permuteQPR g.m_prime ((g.m_index + k) % g.m_prime)) ≤ g.m_range :=
    accept_exists g.m_prime g.m_range g.m_index hp0
  refine ⟨Nat.find hK, ?_, Nat.find_spec hK, next_eq g ha hK⟩
  intro j hj
  have := Nat.find_min hK hj
  omega

/-- C5, witness at the state `⟨3, 1, 11, 10⟩`. -/
theorem C5_loop_structure_witness :
    (0 < (UniqueSeq.mk 3 1 11 10).m_prime ∧
      (UniqueSeq.mk 3 1 11 10).m_index < (UniqueSeq.mk 3 1 11 10).m_prime) ∧
    ∃ K, (∀ j, j < K → (UniqueSeq.mk 3 1 11 10).m_range
        < permuteQPR (UniqueSeq.mk 3 1 11 10).m_prime
          (permuteQPR (UniqueSeq.mk 3 1 11 10).m_prime
            (((UniqueSeq.mk 3 1 11 10).m_index + j) % (UniqueSeq.mk 3 1 11 10).m_prime))) ∧
      permuteQPR (UniqueSeq.mk 3 1 11 10).m_prime
          (permuteQPR (UniqueSeq.mk 3 1 11 10).m_prime
            (((UniqueSeq.mk 3 1 11 10).m_index + K) % (UniqueSeq.mk 3 1 11 10).m_prime))
        ≤ (UniqueSeq.mk 3 1 11 10).m_range ∧
      (UniqueSeq.mk 3 1 11 10).next = (permuteQPR (UniqueSeq.mk 3 1 11 10).m_prime
          (permuteQPR (UniqueSeq.mk 3 1 11 10).m_prime
            (((UniqueSeq.mk 3 1 11 10).m_index + K) % (UniqueSeq.mk 3 1 11 10).m_prime)),
        { UniqueSeq.mk 3 1 11 10 with m_index :=
            ((UniqueSeq.mk 3 1 11 10).m_index + K + 1) % (UniqueSeq.mk 3 1 11 10).m_prime }) :=
  ⟨⟨by decide, by decide⟩, C5_loop_structure (UniqueSeq.mk 3 1 11 10) (by decide) (by decide)⟩

/-- C6 (confirmed).  For every generator constructed with an `unsigned int`
range `≥ 1` and any seed, every call to `next()` (from the initial state or
after any number of calls) terminates within at most `m_prime` iterations of
the rejection loop — fuel `m_prime - 1` already yields the loop's result —
and the returned value satisfies the acceptance bound, so no error state is
reachable. -/
theorem C6_termination (range seed : ℕ) (h1 : 1 ≤ range) (h2 : range < U32) (n : ℕ) :
    (nextAux ((UniqueSeq.make range seed).afterN n).m_prime
        ((UniqueSeq.make range seed).afterN n).m_range
        (((UniqueSeq.make range seed).afterN n).m_prime - 1)
        ((UniqueSeq.make range seed).afterN n).m_index
      = nextAux ((UniqueSeq.make range seed).afterN n).m_prime
        ((UniqueSeq.make range seed).afterN n).m_range
        (((UniqueSeq.make range seed).afterN n).m_prime + 1)
        ((UniqueSeq.make range seed).afterN n).m_index) ∧
    (((UniqueSeq.make range seed).afterN n).next).1
      ≤ ((UniqueSeq.make range seed).afterN n).m_range := by
  have hpp := afterN_m_prime (UniqueSeq.make range seed) n
  have hrr := afterN_m_range (UniqueSeq.make range seed) n
  have hp3 : 3 ≤ ((UniqueSeq.make range seed).afterN n).m_prime := by
    rw [hpp]
    exact make_prime_ge3 range seed
  have hr1 : 1 ≤ ((UniqueSeq.make range seed).afterN n).m_range := by
    rw [hrr, make_m_range, Nat.mod_eq_of_lt h2]
    exact h1
  exact ⟨loop_fuel_bound ((UniqueSeq.make range seed).afterN n) hp3 hr1,
    next_fst_le ((UniqueSeq.make range seed).afterN n) (by omega)⟩

/-- C6, witness at `range = 10`, `seed = 1`, initial state. -/
theorem C6_termination_witness :
    ((1 ≤ 10 ∧ 10 < U32) ∧
      ((nextAux ((UniqueSeq.make 10 1).afterN 0).m_prime
          ((UniqueSeq.make 10 1).afterN 0).m_range
          (((UniqueSeq.make 10 1).afterN 0).m_prime - 1)
          ((UniqueSeq.make 10 1).afterN 0).m_index
        = nextAux ((UniqueSeq.make 10 1).afterN 0).m_prime
          ((UniqueSeq.make 10 1).afterN 0).m_range
          (((UniqueSeq.make 10 1).afterN 0).m_prime + 1)
          ((UniqueSeq.make 10 1).afterN 0).m_index) ∧
      (((UniqueSeq.make 10 1).afterN 0).next).1
        ≤ ((UniqueSeq.make 10 1).afterN 0).m_range)) :=
  ⟨⟨by norm_num, by decide⟩, C6_termination 10 1 (by norm_num) (by decide) 0⟩

/-- C7 (amended).  The argument `range = 5000000000` does not reach the cap
branch: converted to `unsigned int` it wraps to `705032704`, the selected
prime is `705032719` (not `4294967291`), and every emitted value is at most
`705032704` (in particular never above `4294967291`, but for the wrap-around
reason, not the claimed cap). -/
theorem C7_cap_truncation (seed n : ℕ) :
    (UniqueSeq.make 5000000000 seed).m_prime = 705032719 ∧
    (UniqueSeq.make 5000000000 seed).m_range = 705032704 ∧
    ∀ v, v ∈ (UniqueSeq.make 5000000000 seed).nexts n → v ≤ 705032704 := by
  have hp : (UniqueSeq.make 5000000000 seed).m_prime = 705032719 := by
    rw [make_m_prime 5000000000 seed (by decide),
      show (5000000000 : ℕ) % U32 = 705032704 from by rw [U32_eq], gnsp_705032704,
      U32_eq]
  have hr : (UniqueSeq.make 5000000000 seed).m_range = 705032704 := by
    rw [make_m_range, U32_eq]
  refine ⟨hp, hr, ?_⟩
  intro v hv
  have hle := nexts_all_le n (UniqueSeq.make 5000000000 seed) (by rw [hp]; norm_num) v hv
  rwa [hr] at hle

/-- C7, counterexample to the claim as stated: constructing with
`range = 5000000000` selects `705032719`, not `4294967291`. -/
theorem C7_cap_truncation_cex : (UniqueSeq.make 5000000000 1).m_prime ≠ 4294967291 := by
  rw [make_5000000000_1]
  decide

/-- C8 (amended).  Construction with `range == 0` does not fail: the
constructor performs no validation, and `range = 0` yields a fully formed
generator with prime `7` and range `0`. -/
theorem C8_no_validation (seed : ℕ) :
    (UniqueSeq.make 0 seed).m_prime = 7 ∧ (UniqueSeq.make 0 seed).m_range = 0 :=
  ⟨make_m_prime_zero seed, rfl⟩

/-- C8, counterexample to the claim as stated: the construction at
`range = 0`, `seed = 1` succeeds and produces the concrete state
`⟨15, 7, 7, 0⟩` — no invalid-argument error exists in the constructor. -/
theorem C8_no_validation_cex : UniqueSeq.make 0 1 = UniqueSeq.mk 15 7 7 0 := by
  decide

/-- C9 (confirmed).  Two generators constructed with identical
`(range, seed)` produce element-for-element identical output sequences. -/
theorem C9_determinism (range seed n : ℕ) (g1 g2 : UniqueSeq)
    (h1 : g1 = UniqueSeq.make range seed) (h2 : g2 = UniqueSeq.make range seed) :
    g1.nexts n = g2.nexts n := by
  rw [h1, h2]

/-- C9, witness at `range = 10`, `seed = 1`, five outputs. -/
theorem C9_determinism_witness :
    (UniqueSeq.make 10 1).nexts 5 = (UniqueSeq.make 10 1).nexts 5 :=
  C9_determinism 10 1 5 (UniqueSeq.make 10 1) (UniqueSeq.make 10 1) rfl rfl

/-- C10 (confirmed).  `next()` writes only the index field — prime, range and
offset keep their values — and neither the returned value nor the new index
reads the stored `m_intermediateOffset`: states differing only in that field
produce the same value and the same new index. -/
theorem C10_frame (g : UniqueSeq) (o : ℕ) :
    ((g.next).2.m_prime = g.m_prime ∧ (g.next).2.m_range = g.m_range ∧
      (g.next).2.m_intermediateOffset = g.m_intermediateOffset) ∧
    (({ g with m_intermediateOffset := o } : UniqueSeq).next).1 = (g.next).1 ∧
    (({ g with m_intermediateOffset := o } : UniqueSeq).next).2.m_index
      = (g.next).2.m_index :=
  ⟨⟨rfl, rfl, rfl⟩, rfl, rfl⟩

end UniqSeq
